import Mathlib

/-!
Verification of the encoji codec core (`encoji.go`).

Go strings are modelled as lists of byte values (`List Nat`, each < 256),
runes as codepoint values (`Nat`).  The embedding covers:
  * `byteToVariationSelector` / `variationSelectorToByte` — the byte ↔
    variation-selector codepoint map (the latter kept as the source's
    per-value interval scan);
  * Go's UTF-8 machinery as used by the source: `strings.Builder.WriteRune`
    (`utf8Encode`), the `for range` rune iteration (`utf8Decode`, invalid
    bytes yielding U+FFFD and advancing one byte), and `strings.TrimSpace`
    (ASCII+Unicode whitespace, rune-aware on both ends);
  * `encode` / `decode` and the exported `EncodeText` / `DecodeText`.
-/

set_option maxRecDepth 4000

namespace Encoji

/-- `byteToVariationSelector` from encoji.go: bytes 0–15 map into
variation-selector range A (U+FE00–U+FE0F), bytes 16–255 into range B
(U+E0100–U+E01EF).  The Go parameter has type `byte`, so callers always
pass a value < 256, and in the else-branch `uint32(b-16)` equals `b - 16`. -/
def byteToVariationSelector (b : Nat) : Nat :=
  if b < 16 then 0xFE00 + b else 0xE0100 + (b - 16)

/-- One Go loop `for i := lo; i <= lo+n-1; i++ { if varSel == i { return } }`
from `variationSelectorToByte`, as a scan over the `n` values starting at
`lo`: `true` iff the loop would have returned. -/
def scanRange (varSel : Nat) : Nat → Nat → Bool
  | _, 0 => false
  | lo, n + 1 => if varSel = lo then true else scanRange varSel (lo + 1) n

/-- `variationSelectorToByte` from encoji.go, kept as the source's brute-force
per-value iteration over the two ranges (16 values from U+FE00, 240 values
from U+E0100).  The `% 256` is Go's `byte(...)` conversion. -/
def variationSelectorToByte (vs : Nat) : Option Nat :=
  if scanRange vs 0xFE00 16 then some ((vs - 0xFE00) % 256)
  else if scanRange vs 0xE0100 240 then some ((vs - 0xE0100 + 16) % 256)
  else none

/-- Direct interval-comparison form of the reverse map, following the spec's
§4.1 wording (`cp` in [0xFE00,0xFE0F] → `cp - 0xFE00`; `cp` in
[0xE0100,0xE01EF] → `cp - 0xE0100 + 16`; otherwise failure). -/
def variationSelectorToByteSpec (vs : Nat) : Option Nat :=
  if 0xFE00 ≤ vs ∧ vs ≤ 0xFE0F then some (vs - 0xFE00)
  else if 0xE0100 ≤ vs ∧ vs ≤ 0xE01EF then some (vs - 0xE0100 + 16)
  else none

/-- A codepoint lies in one of the two reserved variation-selector ranges. -/
def inVSRange (cp : Nat) : Prop :=
  (0xFE00 ≤ cp ∧ cp ≤ 0xFE0F) ∨ (0xE0100 ≤ cp ∧ cp ≤ 0xE01EF)

instance (cp : Nat) : Decidable (inVSRange cp) := by
  unfold inVSRange; infer_instance

lemma scanRange_eq_true (varSel : Nat) :
    ∀ n lo, scanRange varSel lo n = true ↔ lo ≤ varSel ∧ varSel < lo + n := by
  intro n
  induction n with
  | zero => intro lo; simp [scanRange]
  | succ k ih =>
    intro lo
    simp only [scanRange]
    by_cases h : varSel = lo
    · rw [if_pos h]
      constructor
      · intro _; omega
      · intro _; rfl
    · rw [if_neg h, ih (lo + 1)]
      omega

/-- The iterative reverse map agrees with its interval-comparison form. -/
lemma variationSelectorToByte_eq_spec (vs : Nat) :
    variationSelectorToByte vs = variationSelectorToByteSpec vs := by
  unfold variationSelectorToByte variationSelectorToByteSpec
  by_cases h1 : 0xFE00 ≤ vs ∧ vs ≤ 0xFE0F
  · rw [if_pos, if_pos h1]
    · have : (vs - 0xFE00) % 256 = vs - 0xFE00 := Nat.mod_eq_of_lt (by omega)
      rw [this]
    · rw [scanRange_eq_true]; omega
  · rw [if_neg, if_neg h1]
    · by_cases h2 : 0xE0100 ≤ vs ∧ vs ≤ 0xE01EF
      · rw [if_pos, if_pos h2]
        · have : (vs - 0xE0100 + 16) % 256 = vs - 0xE0100 + 16 :=
            Nat.mod_eq_of_lt (by omega)
          rw [this]
        · rw [scanRange_eq_true]; omega
      · rw [if_neg, if_neg h2]
        rw [scanRange_eq_true]; omega
    · rw [scanRange_eq_true]; omega

lemma spec_some_of_rangeA (vs : Nat) (h : 0xFE00 ≤ vs ∧ vs ≤ 0xFE0F) :
    variationSelectorToByteSpec vs = some (vs - 0xFE00) := by
  unfold variationSelectorToByteSpec
  rw [if_pos h]

lemma spec_some_of_rangeB (vs : Nat) (h : 0xE0100 ≤ vs ∧ vs ≤ 0xE01EF) :
    variationSelectorToByteSpec vs = some (vs - 0xE0100 + 16) := by
  unfold variationSelectorToByteSpec
  rw [if_neg (by omega), if_pos h]

lemma spec_none_of_not_inVSRange (vs : Nat) (h : ¬ inVSRange vs) :
    variationSelectorToByteSpec vs = none := by
  unfold inVSRange at h
  unfold variationSelectorToByteSpec
  rw [if_neg (by tauto), if_neg (by tauto)]

lemma byteToVS_inVSRange (b : Nat) (hb : b < 256) :
    inVSRange (byteToVariationSelector b) := by
  unfold inVSRange byteToVariationSelector
  by_cases h : b < 16
  · left; rw [if_pos h]; omega
  · right; rw [if_neg h]; omega

lemma spec_byteToVS (b : Nat) (hb : b < 256) :
    variationSelectorToByteSpec (byteToVariationSelector b) = some b := by
  unfold byteToVariationSelector
  by_cases h : b < 16
  · rw [if_pos h]
    have h2 := spec_some_of_rangeA (0xFE00 + b) (by omega)
    rw [h2, Option.some.injEq]
    omega
  · rw [if_neg h]
    have h2 := spec_some_of_rangeB (0xE0100 + (b - 16)) (by omega)
    rw [h2, Option.some.injEq]
    omega

lemma vsToByte_byteToVS (b : Nat) (hb : b < 256) :
    variationSelectorToByte (byteToVariationSelector b) = some b := by
  rw [variationSelectorToByte_eq_spec, spec_byteToVS b hb]

/-- Go `utf8.DecodeRuneInString` on a byte list: the decoded rune and the
number of bytes consumed.  Invalid starters, bad continuation bytes,
overlong forms, surrogates and truncated sequences all yield
(U+FFFD, 1), exactly as in Go's `first`/`acceptRanges` tables. -/
def decodeRune (l : List Nat) : Nat × Nat :=
  match l with
  | [] => (0xFFFD, 0)
  | b0 :: rest =>
    if b0 < 0x80 then (b0, 1)
    else if b0 < 0xC2 then (0xFFFD, 1)
    else if b0 ≤ 0xDF then
      match rest with
      | b1 :: _ =>
        if 0x80 ≤ b1 ∧ b1 ≤ 0xBF then ((b0 - 0xC0) * 64 + (b1 - 0x80), 2)
        else (0xFFFD, 1)
      | [] => (0xFFFD, 1)
    else if b0 ≤ 0xEF then
      match rest with
      | b1 :: b2 :: _ =>
        if (if b0 = 0xE0 then 0xA0 ≤ b1 ∧ b1 ≤ 0xBF
            else if b0 = 0xED then 0x80 ≤ b1 ∧ b1 ≤ 0x9F
            else 0x80 ≤ b1 ∧ b1 ≤ 0xBF) ∧ (0x80 ≤ b2 ∧ b2 ≤ 0xBF)
        then ((b0 - 0xE0) * 4096 + (b1 - 0x80) * 64 + (b2 - 0x80), 3)
        else (0xFFFD, 1)
      | _ => (0xFFFD, 1)
    else if b0 ≤ 0xF4 then
      match rest with
      | b1 :: b2 :: b3 :: _ =>
        if (if b0 = 0xF0 then 0x90 ≤ b1 ∧ b1 ≤ 0xBF
            else if b0 = 0xF4 then 0x80 ≤ b1 ∧ b1 ≤ 0x8F
            else 0x80 ≤ b1 ∧ b1 ≤ 0xBF) ∧ (0x80 ≤ b2 ∧ b2 ≤ 0xBF) ∧
            (0x80 ≤ b3 ∧ b3 ≤ 0xBF)
        then ((b0 - 0xF0) * 262144 + (b1 - 0x80) * 4096 + (b2 - 0x80) * 64 +
                (b3 - 0x80), 4)
        else (0xFFFD, 1)
      | _ => (0xFFFD, 1)
    else (0xFFFD, 1)

lemma decodeRune_size_pos (b0 : Nat) (rest : List Nat) :
    1 ≤ (decodeRune (b0 :: rest)).2 := by
  unfold decodeRune
  repeat' split
  all_goals first
  | contradiction
  | simp

/-- Go's `for range` iteration over a string: decode runes left to right,
advancing by the consumed size (1 on invalid bytes).  Fuel-indexed so the
definition Lean sees is structural; each step consumes at least one byte,
so fuel = length is exact (`utf8Decode`). -/
def utf8DecodeFuel : Nat → List Nat → List Nat
  | 0, _ => []
  | _ + 1, [] => []
  | fuel + 1, b0 :: rest =>
    (decodeRune (b0 :: rest)).1 ::
      utf8DecodeFuel fuel (List.drop ((decodeRune (b0 :: rest)).2 - 1) rest)

/-- The rune sequence Go's `for range` sees in a byte string. -/
def utf8Decode (l : List Nat) : List Nat := utf8DecodeFuel l.length l

lemma utf8DecodeFuel_congr :
    ∀ fuel l, l.length ≤ fuel → utf8DecodeFuel fuel l = utf8Decode l := by
  intro fuel
  induction fuel using Nat.strong_induction_on with
  | _ fuel ih =>
    cases fuel with
    | zero =>
      intro l hl
      have : l = [] := List.length_eq_zero.mp (by omega)
      subst this
      rfl
    | succ k =>
      intro l hl
      cases l with
      | nil => rfl
      | cons b0 rest =>
        unfold utf8Decode
        simp only [List.length_cons, utf8DecodeFuel]
        have hd : (List.drop ((decodeRune (b0 :: rest)).2 - 1) rest).length ≤
            rest.length := by
          rw [List.length_drop]; omega
        have hlen : rest.length ≤ k := by
          simp only [List.length_cons] at hl; omega
        rw [ih k (by omega) _ (le_trans hd hlen)]
        rw [ih rest.length (by omega) _ hd]

lemma utf8Decode_nil : utf8Decode [] = [] := rfl

/-- One step of the rune iteration. -/
lemma utf8Decode_cons (b0 : Nat) (rest : List Nat) :
    utf8Decode (b0 :: rest) =
      (decodeRune (b0 :: rest)).1 ::
        utf8Decode (List.drop ((decodeRune (b0 :: rest)).2 - 1) rest) := by
  unfold utf8Decode
  simp only [List.length_cons, utf8DecodeFuel]
  rw [utf8DecodeFuel_congr]
  · rfl
  · rw [List.length_drop]; omega

/-- A valid Unicode scalar value: Go `utf8.ValidRune` (at most U+10FFFF and
not a surrogate; our `Nat` model has no negative runes). -/
def validScalar (r : Nat) : Prop :=
  r ≤ 0x10FFFF ∧ ¬(0xD800 ≤ r ∧ r ≤ 0xDFFF)

instance (r : Nat) : Decidable (validScalar r) := by
  unfold validScalar; infer_instance

/-- UTF-8 encoding of a valid scalar (Go `utf8.EncodeRune`, valid case). -/
def utf8EncodeValid (r : Nat) : List Nat :=
  if r < 0x80 then [r]
  else if r < 0x800 then [0xC0 + r / 64, 0x80 + r % 64]
  else if r < 0x10000 then
    [0xE0 + r / 4096, 0x80 + r / 64 % 64, 0x80 + r % 64]
  else
    [0xF0 + r / 262144, 0x80 + r / 4096 % 64, 0x80 + r / 64 % 64,
      0x80 + r % 64]

/-- What `strings.Builder.WriteRune` appends: the rune's UTF-8 encoding,
with invalid runes (surrogates, beyond U+10FFFF) replaced by U+FFFD. -/
def utf8Encode (r : Nat) : List Nat :=
  if (0xD800 ≤ r ∧ r ≤ 0xDFFF) ∨ 0x10FFFF < r then utf8EncodeValid 0xFFFD
  else utf8EncodeValid r

lemma utf8Encode_of_valid (r : Nat) (h : validScalar r) :
    utf8Encode r = utf8EncodeValid r := by
  unfold utf8Encode validScalar at *
  rw [if_neg (by omega)]

lemma utf8Encode_ne_nil (r : Nat) : utf8Encode r ≠ [] := by
  unfold utf8Encode utf8EncodeValid
  repeat' split
  all_goals simp

lemma decodeRune_ascii (b0 : Nat) (rest : List Nat) (h : b0 < 0x80) :
    decodeRune (b0 :: rest) = (b0, 1) := by
  simp only [decodeRune]
  rw [if_pos h]

lemma decodeRune_cont (b0 : Nat) (rest : List Nat)
    (h1 : 0x80 ≤ b0) (h2 : b0 ≤ 0xBF) :
    decodeRune (b0 :: rest) = (0xFFFD, 1) := by
  simp only [decodeRune]
  rw [if_neg (by omega), if_pos (by omega)]

lemma utf8Decode_ascii_cons (b0 : Nat) (rest : List Nat) (h : b0 < 0x80) :
    utf8Decode (b0 :: rest) = b0 :: utf8Decode rest := by
  rw [utf8Decode_cons, decodeRune_ascii b0 rest h]
  simp

lemma utf8Decode_cont_cons (b0 : Nat) (rest : List Nat)
    (h1 : 0x80 ≤ b0) (h2 : b0 ≤ 0xBF) :
    utf8Decode (b0 :: rest) = 0xFFFD :: utf8Decode rest := by
  rw [utf8Decode_cons, decodeRune_cont b0 rest h1 h2]
  simp

lemma decodeRune_enc2 (r : Nat) (rest : List Nat)
    (h1 : 0x80 ≤ r) (h2 : r < 0x800) :
    decodeRune ((0xC0 + r / 64) :: (0x80 + r % 64) :: rest) = (r, 2) := by
  simp only [decodeRune]
  rw [if_neg (by omega), if_neg (by omega), if_pos (by omega),
    if_pos (by omega), Prod.mk.injEq]
  exact ⟨by omega, rfl⟩

lemma decodeRune_enc3 (r : Nat) (rest : List Nat)
    (h1 : 0x800 ≤ r) (h2 : r < 0x10000) (h3 : ¬(0xD800 ≤ r ∧ r ≤ 0xDFFF)) :
    decodeRune ((0xE0 + r / 4096) :: (0x80 + r / 64 % 64) ::
      (0x80 + r % 64) :: rest) = (r, 3) := by
  have hcond : (if 0xE0 + r / 4096 = 0xE0 then
        0xA0 ≤ 0x80 + r / 64 % 64 ∧ 0x80 + r / 64 % 64 ≤ 0xBF
      else if 0xE0 + r / 4096 = 0xED then
        0x80 ≤ 0x80 + r / 64 % 64 ∧ 0x80 + r / 64 % 64 ≤ 0x9F
      else 0x80 ≤ 0x80 + r / 64 % 64 ∧ 0x80 + r / 64 % 64 ≤ 0xBF) ∧
      (0x80 ≤ 0x80 + r % 64 ∧ 0x80 + r % 64 ≤ 0xBF) := by
    constructor
    · split
      · omega
      · split
        · omega
        · omega
    · omega
  simp only [decodeRune]
  rw [if_neg (by omega), if_neg (by omega), if_neg (by omega),
    if_pos (by omega), if_pos hcond, Prod.mk.injEq]
  exact ⟨by omega, rfl⟩

lemma decodeRune_enc4 (r : Nat) (rest : List Nat)
    (h1 : 0x10000 ≤ r) (h2 : r ≤ 0x10FFFF) :
    decodeRune ((0xF0 + r / 262144) :: (0x80 + r / 4096 % 64) ::
      (0x80 + r / 64 % 64) :: (0x80 + r % 64) :: rest) = (r, 4) := by
  have hcond : (if 0xF0 + r / 262144 = 0xF0 then
        0x90 ≤ 0x80 + r / 4096 % 64 ∧ 0x80 + r / 4096 % 64 ≤ 0xBF
      else if 0xF0 + r / 262144 = 0xF4 then
        0x80 ≤ 0x80 + r / 4096 % 64 ∧ 0x80 + r / 4096 % 64 ≤ 0x8F
      else 0x80 ≤ 0x80 + r / 4096 % 64 ∧ 0x80 + r / 4096 % 64 ≤ 0xBF) ∧
      (0x80 ≤ 0x80 + r / 64 % 64 ∧ 0x80 + r / 64 % 64 ≤ 0xBF) ∧
      (0x80 ≤ 0x80 + r % 64 ∧ 0x80 + r % 64 ≤ 0xBF) := by
    refine ⟨?_, by omega, by omega⟩
    split
    · omega
    · split
      · omega
      · omega
  simp only [decodeRune]
  rw [if_neg (by omega), if_neg (by omega), if_neg (by omega),
    if_neg (by omega), if_pos (by omega), if_pos hcond, Prod.mk.injEq]
  exact ⟨by omega, rfl⟩

lemma decodeRune_encodeValid (r : Nat) (rest : List Nat) (h : validScalar r) :
    decodeRune (utf8EncodeValid r ++ rest) = (r, (utf8EncodeValid r).length) := by
  obtain ⟨hr, hs⟩ := h
  unfold utf8EncodeValid
  by_cases c1 : r < 0x80
  · rw [if_pos c1]
    simpa using decodeRune_ascii r rest c1
  · rw [if_neg c1]
    by_cases c2 : r < 0x800
    · rw [if_pos c2]
      simpa using decodeRune_enc2 r rest (by omega) c2
    · rw [if_neg c2]
      by_cases c3 : r < 0x10000
      · rw [if_pos c3]
        simpa using decodeRune_enc3 r rest (by omega) c3 hs
      · rw [if_neg c3]
        simpa using decodeRune_enc4 r rest (by omega) hr

lemma utf8Decode_headRun (enc rest : List Nat) (r : Nat)
    (hne : enc ≠ [])
    (hdr : decodeRune (enc ++ rest) = (r, enc.length)) :
    utf8Decode (enc ++ rest) = r :: utf8Decode rest := by
  match enc with
  | e0 :: etail =>
    simp only [List.cons_append, List.length_cons] at hdr
    rw [List.cons_append, utf8Decode_cons, hdr]
    simp only [Nat.add_sub_cancel]
    rw [List.drop_left]

/-- `WriteRune` of a valid scalar followed by anything decodes back to that
scalar followed by the decoding of the remainder. -/
lemma utf8Decode_encode_append (r : Nat) (rest : List Nat)
    (h : validScalar r) :
    utf8Decode (utf8Encode r ++ rest) = r :: utf8Decode rest := by
  rw [utf8Encode_of_valid r h]
  refine utf8Decode_headRun _ _ _ ?_ (decodeRune_encodeValid r rest h)
  unfold utf8EncodeValid
  repeat' split
  all_goals simp

/-- `encode` from encoji.go: write the base rune, then one variation
selector per payload byte, accumulating UTF-8 bytes in the builder. -/
def encode (base : Nat) (sentence : List Nat) : List Nat :=
  utf8Encode base ++
    (sentence.map (fun b => utf8Encode (byteToVariationSelector b))).flatten

/-- The body of `decode`'s loop in encoji.go: `variationSelectorToByte`,
writing the byte on success and a newline byte `'\n'` on error. -/
def decodeStep (vs : Nat) : Nat :=
  match variationSelectorToByte vs with
  | some b => b
  | none => 0x0A

/-- `decode` from encoji.go: for each rune of the input in order, write the
reverse-mapped byte, or a newline byte when the reverse map fails. -/
def decode (varSels : List Nat) : List Nat :=
  (utf8Decode varSels).map decodeStep

/-- Go `unicode.IsSpace`: the White_Space property. -/
def isSpaceRune (r : Nat) : Bool :=
  (0x09 ≤ r && r ≤ 0x0D) || r == 0x20 || r == 0x85 || r == 0xA0 ||
    r == 0x1680 || (0x2000 ≤ r && r ≤ 0x200A) || r == 0x2028 ||
    r == 0x2029 || r == 0x202F || r == 0x205F || r == 0x3000

/-- Left half of `strings.TrimSpace`: repeatedly decode the first rune and
drop it while it is whitespace (fuel-indexed; each step drops at least one
byte, so fuel = length is exact). -/
def trimLeftFuel : Nat → List Nat → List Nat
  | 0, l => l
  | _ + 1, [] => []
  | fuel + 1, b0 :: rest =>
    if isSpaceRune (decodeRune (b0 :: rest)).1 then
      trimLeftFuel fuel (List.drop ((decodeRune (b0 :: rest)).2 - 1) rest)
    else b0 :: rest

def trimLeft (l : List Nat) : List Nat := trimLeftFuel l.length l

/-- Go `utf8.RuneStart`: `b & 0xC0 != 0x80`; for byte values this is
`b / 64 ≠ 2`. -/
def runeStart (b : Nat) : Bool := b / 64 != 2

/-- The backward scan of Go `utf8.DecodeLastRuneInString`: from index `i`
down to `lim`, the first index holding a non-continuation byte, with Go's
fallback `lim - 1` (clamped at 0, which `Nat` subtraction gives directly)
when the scan exhausts. -/
def findStart (l : List Nat) (lim : Nat) : Nat → Nat
  | 0 => if lim = 0 ∧ runeStart (l.getD 0 0) then 0 else lim - 1
  | i + 1 =>
    if i + 1 < lim then lim - 1
    else if runeStart (l.getD (i + 1) 0) then i + 1
    else findStart l lim i

/-- Go `utf8.DecodeLastRuneInString`: an ASCII last byte decodes directly;
otherwise scan back at most 4 bytes for a start byte, decode forward from
it, and fail with (U+FFFD, 1) unless that decoding spans to the end. -/
def decodeLastRune (l : List Nat) : Nat × Nat :=
  if l = [] then (0xFFFD, 0)
  else if l.getD (l.length - 1) 0 < 0x80 then (l.getD (l.length - 1) 0, 1)
  else
    let start := findStart l (l.length - 4) (l.length - 2)
    let p := decodeRune (l.drop start)
    if start + p.2 = l.length then p else (0xFFFD, 1)

/-- Right half of `strings.TrimSpace`: repeatedly decode the last rune and
drop it while it is whitespace. -/
def trimRightFuel : Nat → List Nat → List Nat
  | 0, l => l
  | fuel + 1, l =>
    if l = [] then []
    else if isSpaceRune (decodeLastRune l).1 then
      trimRightFuel fuel (l.take (l.length - (decodeLastRune l).2))
    else l

def trimRight (l : List Nat) : List Nat := trimRightFuel l.length l

/-- Go `strings.TrimSpace`: whitespace runes trimmed from both ends. -/
def trimSpace (l : List Nat) : List Nat := trimRight (trimLeft l)

/-- `EncodeText` from encoji.go: reject an empty target, then an empty
clear text; otherwise `encode(rune(target[0]), []byte(clearText))` followed
by `target[1:]`.  (The source guards the append with `len(target) > 1`;
appending the empty remainder is the same thing.) -/
def EncodeText (clearText target : List Nat) : Except String (List Nat) :=
  match target with
  | [] => .error "target cannot be empty"
  | t0 :: trest =>
    if clearText = [] then .error "clear text cannot be empty"
    else .ok (encode t0 clearText ++ trest)

/-- `DecodeText` from encoji.go: reject an empty target, otherwise
`strings.TrimSpace(decode(target))`. -/
def DecodeText (target : List Nat) : Except String (List Nat) :=
  match target with
  | [] => .error "target cannot be empty"
  | _ => .ok (trimSpace (decode target))

lemma byteToVS_validScalar (b : Nat) (hb : b < 256) :
    validScalar (byteToVariationSelector b) := by
  unfold validScalar byteToVariationSelector
  by_cases h : b < 16
  · rw [if_pos h]; omega
  · rw [if_neg h]; omega

/-- Decoding the flattened variation-selector encodings of a payload
recovers the mapped codepoints, leaving the remainder untouched. -/
lemma utf8Decode_vsenc (p : List Nat) (rest : List Nat)
    (hp : ∀ b ∈ p, b < 256) :
    utf8Decode
        ((p.map (fun b => utf8Encode (byteToVariationSelector b))).flatten ++
          rest) =
      p.map byteToVariationSelector ++ utf8Decode rest := by
  induction p with
  | nil => simp
  | cons b q ih =>
    have hb : b < 256 := hp b (List.mem_cons_self b q)
    have hq : ∀ x ∈ q, x < 256 := fun x hx => hp x (List.mem_cons_of_mem b hx)
    simp only [List.map_cons, List.flatten_cons, List.append_assoc]
    rw [utf8Decode_encode_append _ _ (byteToVS_validScalar b hb)]
    rw [ih hq, List.cons_append]

lemma utf8Decode_cont_list (l : List Nat)
    (h : ∀ b ∈ l, 0x80 ≤ b ∧ b ≤ 0xBF) :
    utf8Decode l = l.map (fun _ => 0xFFFD) := by
  induction l with
  | nil => rfl
  | cons b t ih =>
    have hb := h b (List.mem_cons_self b t)
    rw [utf8Decode_cont_cons b t hb.1 hb.2,
      ih (fun x hx => h x (List.mem_cons_of_mem b hx))]
    rfl

lemma vsToByte_none_of_not_inVSRange (vs : Nat) (h : ¬ inVSRange vs) :
    variationSelectorToByte vs = none := by
  rw [variationSelectorToByte_eq_spec, spec_none_of_not_inVSRange vs h]

lemma decodeStep_newline (vs : Nat) (h : ¬ inVSRange vs) :
    decodeStep vs = 0x0A := by
  unfold decodeStep
  rw [vsToByte_none_of_not_inVSRange vs h]

lemma decodeStep_byteToVS (b : Nat) (hb : b < 256) :
    decodeStep (byteToVariationSelector b) = b := by
  unfold decodeStep
  rw [vsToByte_byteToVS b hb]

/-- The head byte / continuation-tail decomposition of a valid scalar's
UTF-8 encoding: the head byte is at most 0xF4, the tail is all
continuation bytes. -/
lemma utf8Encode_head_tail (c : Nat) (hc : validScalar c) :
    ∃ b0 ctail, utf8Encode c = b0 :: ctail ∧ b0 ≤ 0xF4 ∧
      (∀ b ∈ ctail, 0x80 ≤ b ∧ b ≤ 0xBF) := by
  obtain ⟨hr, hs⟩ := hc
  rw [utf8Encode_of_valid c ⟨hr, hs⟩]
  unfold utf8EncodeValid
  by_cases c1 : c < 0x80
  · rw [if_pos c1]
    exact ⟨c, [], rfl, by omega, by simp⟩
  · rw [if_neg c1]
    by_cases c2 : c < 0x800
    · rw [if_pos c2]
      refine ⟨0xC0 + c / 64, [0x80 + c % 64], rfl, by omega, ?_⟩
      intro b hb
      simp only [List.mem_singleton] at hb
      omega
    · rw [if_neg c2]
      by_cases c3 : c < 0x10000
      · rw [if_pos c3]
        refine ⟨0xE0 + c / 4096, [0x80 + c / 64 % 64, 0x80 + c % 64], rfl,
          by omega, ?_⟩
        intro b hb
        simp only [List.mem_cons, List.mem_singleton, List.not_mem_nil,
          or_false] at hb
        rcases hb with h | h <;> omega
      · rw [if_neg c3]
        refine ⟨0xF0 + c / 262144,
          [0x80 + c / 4096 % 64, 0x80 + c / 64 % 64, 0x80 + c % 64], rfl,
          by omega, ?_⟩
        intro b hb
        simp only [List.mem_cons, List.mem_singleton, List.not_mem_nil,
          or_false] at hb
        rcases hb with h | h | h <;> omega

lemma map_const_eq_replicate (l : List Nat) (c : Nat) :
    l.map (fun _ => c) = List.replicate l.length c := by
  induction l with
  | nil => rfl
  | cons b t ih => simp [ih, List.replicate_succ]

lemma map_decodeStep_const (x : Nat) (hx : ¬ inVSRange x) (l : List Nat) :
    List.map (decodeStep ∘ fun _ : Nat => x) l =
      List.replicate l.length 0x0A := by
  rw [← map_const_eq_replicate l 0x0A]
  refine List.map_congr_left ?_
  intro b _
  exact decodeStep_newline x hx

/-- `decode` applied to an `encode` result followed by continuation bytes:
the base rune falls back to a newline, the payload comes back byte for
byte, and each trailing continuation byte falls back to a newline. -/
lemma decode_encode_append (base : Nat) (p : List Nat) (ctail : List Nat)
    (hbase : validScalar base) (hnvs : ¬ inVSRange base)
    (hp : ∀ b ∈ p, b < 256)
    (hct : ∀ b ∈ ctail, 0x80 ≤ b ∧ b ≤ 0xBF) :
    decode (encode base p ++ ctail) =
      0x0A :: p ++ List.replicate ctail.length 0x0A := by
  unfold decode encode
  rw [List.append_assoc]
  rw [utf8Decode_encode_append base _ hbase]
  rw [utf8Decode_vsenc p ctail hp, utf8Decode_cont_list ctail hct]
  simp only [List.map_cons, List.map_append, List.map_map]
  have h1 : List.map (decodeStep ∘ byteToVariationSelector) p = p := by
    conv_rhs => rw [← List.map_id p]
    refine List.map_congr_left ?_
    intro b hb
    exact decodeStep_byteToVS b (hp b hb)
  rw [h1, map_decodeStep_const 0xFFFD (by unfold inVSRange; omega) ctail,
    decodeStep_newline base hnvs, List.cons_append]

lemma isSpaceRune_newline : isSpaceRune 0x0A = true := by decide

lemma isSpaceRune_printable (b : Nat) (h1 : 0x21 ≤ b) (h2 : b ≤ 0x7E) :
    isSpaceRune b = false := by
  unfold isSpaceRune
  simp only [Bool.or_eq_false_iff, Bool.and_eq_false_iff,
    decide_eq_false_iff_not, not_le, beq_eq_false_iff_ne, ne_eq]
  omega

lemma trimLeftFuel_cons_newline (fuel : Nat) (rest : List Nat) :
    trimLeftFuel (fuel + 1) (0x0A :: rest) = trimLeftFuel fuel rest := by
  simp only [trimLeftFuel]
  rw [decodeRune_ascii 0x0A rest (by omega)]
  simp [isSpaceRune_newline]

lemma trimLeftFuel_stop (fuel : Nat) (b0 : Nat) (rest : List Nat)
    (h1 : b0 < 0x80) (hs : isSpaceRune b0 = false) :
    trimLeftFuel fuel (b0 :: rest) = b0 :: rest := by
  cases fuel with
  | zero => rfl
  | succ k =>
    simp only [trimLeftFuel]
    rw [decodeRune_ascii b0 rest h1]
    simp [hs]

lemma getD_concat (l : List Nat) (b : Nat) :
    (l ++ [b]).getD l.length 0 = b := by
  induction l with
  | nil => rfl
  | cons h t ih =>
    simp only [List.cons_append, List.length_cons, List.getD_cons_succ]
    exact ih

lemma decodeLastRune_concat_ascii (l : List Nat) (b : Nat) (hb : b < 0x80) :
    decodeLastRune (l ++ [b]) = (b, 1) := by
  have hne : l ++ [b] ≠ [] := by simp
  have hlen : (l ++ [b]).length - 1 = l.length := by simp
  have hget : (l ++ [b]).getD ((l ++ [b]).length - 1) 0 = b := by
    rw [hlen]; exact getD_concat l b
  unfold decodeLastRune
  rw [if_neg hne, hget, if_pos hb]

lemma trimRightFuel_concat_newline (fuel : Nat) (l : List Nat) :
    trimRightFuel (fuel + 1) (l ++ [0x0A]) = trimRightFuel fuel l := by
  simp only [trimRightFuel]
  rw [if_neg (show ¬(l ++ [0x0A] = []) by simp),
    decodeLastRune_concat_ascii l 0x0A (by omega)]
  rw [if_pos (by simpa using isSpaceRune_newline)]
  have hlen : (l ++ [0x0A]).length - 1 = l.length := by simp
  simp only [hlen]
  rw [List.take_left]

lemma trimRightFuel_concat_stop (fuel : Nat) (l : List Nat) (b : Nat)
    (hb : b < 0x80) (hs : isSpaceRune b = false) :
    trimRightFuel fuel (l ++ [b]) = l ++ [b] := by
  cases fuel with
  | zero => rfl
  | succ k =>
    simp only [trimRightFuel]
    rw [if_neg (show ¬(l ++ [b] = []) by simp),
      decodeLastRune_concat_ascii l b hb]
    simp [hs]

lemma trimRightFuel_newlines (k : Nat) :
    ∀ fuel l, k ≤ fuel →
      trimRightFuel fuel (l ++ List.replicate k 0x0A) =
        trimRightFuel (fuel - k) l := by
  induction k with
  | zero => intro fuel l h; simp
  | succ j ih =>
    intro fuel l h
    match fuel, h with
    | f + 1, _ =>
      have hsplit : l ++ List.replicate (j + 1) 0x0A =
          (l ++ List.replicate j 0x0A) ++ [0x0A] := by
        rw [List.replicate_succ', ← List.append_assoc]
      rw [hsplit, trimRightFuel_concat_newline f _, ih f l (by omega)]
      congr 1
      omega

lemma trimRightFuel_stop_getLast (fuel : Nat) (l : List Nat) (hne : l ≠ [])
    (hb : l.getLast hne < 0x80) (hs : isSpaceRune (l.getLast hne) = false) :
    trimRightFuel fuel l = l := by
  have hdec : l.dropLast ++ [l.getLast hne] = l := List.dropLast_append_getLast hne
  rw [← hdec]
  exact trimRightFuel_concat_stop fuel l.dropLast (l.getLast hne) hb hs

/-- `trimLeft`/`trimRight` as their fuel forms (definitional). -/
lemma trimLeft_eq_fuel (l : List Nat) : trimLeft l = trimLeftFuel l.length l :=
  rfl

lemma trimRight_eq_fuel (l : List Nat) :
    trimRight l = trimRightFuel l.length l :=
  rfl

lemma trimLeft_cons_newline (rest : List Nat) :
    trimLeft (0x0A :: rest) = trimLeftFuel rest.length rest := by
  unfold trimLeft
  simp only [List.length_cons]
  exact trimLeftFuel_cons_newline rest.length rest

/-- The shape produced by decoding an embed result — a leading newline, the
printable payload, trailing newlines — trims back to exactly the payload. -/
lemma trimSpace_payload (p : List Nat) (k : Nat)
    (hp : p ≠ []) (hall : ∀ b ∈ p, 0x21 ≤ b ∧ b ≤ 0x7E) :
    trimSpace (0x0A :: p ++ List.replicate k 0x0A) = p := by
  obtain ⟨q0, q, rfl⟩ : ∃ q0 q, p = q0 :: q := by
    cases p with
    | nil => contradiction
    | cons a as => exact ⟨a, as, rfl⟩
  have hq0 := hall q0 (List.mem_cons_self q0 q)
  unfold trimSpace
  rw [List.cons_append]
  rw [trimLeft_cons_newline]
  rw [List.cons_append]
  rw [trimLeftFuel_stop _ q0 _ (by omega)
    (isSpaceRune_printable q0 hq0.1 hq0.2)]
  rw [← List.cons_append]
  rw [trimRight_eq_fuel]
  simp only [List.length_append, List.length_replicate]
  rw [trimRightFuel_newlines k ((q0 :: q).length + k) (q0 :: q) (by omega)]
  have heq : (q0 :: q).length + k - k = (q0 :: q).length := by omega
  rw [heq]
  have hlast := hall ((q0 :: q).getLast (by simp))
    (List.getLast_mem (by simp))
  exact trimRightFuel_stop_getLast _ _ (by simp) (by omega)
    (isSpaceRune_printable _ hlast.1 hlast.2)

lemma trimLeftFuel_all_newlines :
    ∀ fuel lx, lx.length ≤ fuel → (∀ b ∈ lx, b = 0x0A) →
      trimLeftFuel fuel lx = [] := by
  intro fuel
  induction fuel with
  | zero =>
    intro lx h1 _
    have : lx = [] := List.length_eq_zero.mp (by omega)
    subst this
    rfl
  | succ f ih =>
    intro lx h1 h2
    cases lx with
    | nil => rfl
    | cons b rest =>
      have hb : b = 0x0A := h2 b (List.mem_cons_self b rest)
      subst hb
      rw [trimLeftFuel_cons_newline f rest]
      refine ih rest ?_ (fun x hx => h2 x (List.mem_cons_of_mem _ hx))
      simp only [List.length_cons] at h1
      omega

/-- A decode result consisting only of newline bytes trims to empty. -/
lemma trimSpace_all_newlines (l : List Nat) (h : ∀ b ∈ l, b = 0x0A) :
    trimSpace l = [] := by
  unfold trimSpace
  rw [trimLeft_eq_fuel, trimLeftFuel_all_newlines l.length l le_rfl h]
  rfl

instance : DecidableEq (Except String (List Nat))
  | .error x, .error y =>
    if h : x = y then .isTrue (by rw [h])
    else .isFalse (fun hc => h (by cases hc; rfl))
  | .error _, .ok _ => .isFalse (fun hc => by cases hc)
  | .ok _, .error _ => .isFalse (fun hc => by cases hc)
  | .ok x, .ok y =>
    if h : x = y then .isTrue (by rw [h])
    else .isFalse (fun hc => h (by cases hc; rfl))

/-- The non-empty branch of `DecodeText`. -/
lemma DecodeText_of_ne_nil (t : List Nat) (h : t ≠ []) :
    DecodeText t = .ok (trimSpace (decode t)) := by
  cases t with
  | nil => contradiction
  | cons a as => rfl

/-- C1: Round-trip — for every non-empty single-character carrier (the
UTF-8 encoding of one Unicode scalar `c`) and every non-empty payload `p`
of printable, non-whitespace bytes, `DecodeText` after `EncodeText`
reproduces `p` exactly. -/
theorem C1_round_trip (c : Nat) (p : List Nat) (hc : validScalar c)
    (hp : p ≠ []) (hpb : ∀ b ∈ p, 0x21 ≤ b ∧ b ≤ 0x7E) :
    (EncodeText p (utf8Encode c)).bind DecodeText = .ok p := by
  obtain ⟨b0, ctail, henc, hb0, hct⟩ := utf8Encode_head_tail c hc
  rw [henc]
  simp only [EncodeText]
  rw [if_neg hp]
  show DecodeText (encode b0 p ++ ctail) = .ok p
  have hout : encode b0 p ++ ctail ≠ [] := by
    unfold encode
    intro habs
    rw [List.append_assoc, List.append_eq_nil] at habs
    exact utf8Encode_ne_nil b0 habs.1
  rw [DecodeText_of_ne_nil _ hout]
  rw [decode_encode_append b0 p ctail ⟨by omega, by omega⟩
    (by unfold inVSRange; omega)
    (fun b hb => by have := hpb b hb; omega) hct]
  rw [trimSpace_payload p ctail.length hp hpb]

theorem C1_round_trip_witness :
    (EncodeText [0x48, 0x69] (utf8Encode 0x1F600)).bind DecodeText =
      .ok [0x48, 0x69] :=
  C1_round_trip 0x1F600 [0x48, 0x69] (by decide) (by decide) (by decide)

/-- C2: the byte/codepoint map is a bijection onto the two
variation-selector ranges: reverse-map inverts it, it is injective, its
image is exactly Range A ∪ Range B, and the ranges are disjoint. -/
theorem C2_bijection :
    (∀ b, b < 256 →
      variationSelectorToByte (byteToVariationSelector b) = some b) ∧
    (∀ b1 b2, b1 < 256 → b2 < 256 →
      byteToVariationSelector b1 = byteToVariationSelector b2 → b1 = b2) ∧
    (∀ cp, (∃ b, b < 256 ∧ byteToVariationSelector b = cp) ↔ inVSRange cp) ∧
    ∀ cp, ¬((0xFE00 ≤ cp ∧ cp ≤ 0xFE0F) ∧
      (0xE0100 ≤ cp ∧ cp ≤ 0xE01EF)) := by
  refine ⟨fun b hb => vsToByte_byteToVS b hb, ?_, ?_, by intro cp; omega⟩
  · intro b1 b2 h1 h2 heq
    have e1 := vsToByte_byteToVS b1 h1
    have e2 := vsToByte_byteToVS b2 h2
    rw [heq, e2] at e1
    exact (Option.some_inj.mp e1).symm
  · intro cp
    constructor
    · rintro ⟨b, hb, rfl⟩
      exact byteToVS_inVSRange b hb
    · intro hcp
      unfold inVSRange at hcp
      rcases hcp with h | h
      · refine ⟨cp - 0xFE00, by omega, ?_⟩
        unfold byteToVariationSelector
        rw [if_pos (by omega)]
        omega
      · refine ⟨cp - 0xE0100 + 16, by omega, ?_⟩
        unfold byteToVariationSelector
        rw [if_neg (by omega)]
        omega

theorem C2_bijection_witness :
    variationSelectorToByte (byteToVariationSelector 200) = some 200 :=
  C2_bijection.1 200 (by decide)

/-- C3 as stated is false: `EncodeText` splits off the first BYTE of the
carrier, not its first scalar character.  For the carrier "é" (bytes C3 A9,
one scalar U+00E9) and payload [0x41], the output starts with the UTF-8
encoding of U+00C3 (the first byte re-encoded) and ends with the stray
continuation byte A9 — not with the carrier's first scalar U+00E9. -/
theorem C3_counterexample :
    EncodeText [0x41] [0xC3, 0xA9] =
      .ok [0xC3, 0x83, 0xF3, 0xA0, 0x84, 0xB1, 0xA9] ∧
    utf8Decode [0xC3, 0xA9] = [0xE9] ∧
    EncodeText [0x41] [0xC3, 0xA9] ≠
      .ok (utf8Encode 0xE9 ++
        ([0x41].map
          (fun b => utf8Encode (byteToVariationSelector b))).flatten) := by
  refine ⟨by decide, by decide, by decide⟩

/-- C3 amended: on success the output is the carrier's first byte
re-encoded as a rune (codepoint equal to that byte's value), then one
`byteToVariationSelector` codepoint per payload byte in order, then the
remaining BYTES of the carrier verbatim.  (This matches the claim's
first-scalar reading exactly when the carrier starts with an ASCII
character.) -/
theorem C3_amended (clearText : List Nat) (t0 : Nat) (trest : List Nat)
    (h : clearText ≠ []) :
    EncodeText clearText (t0 :: trest) =
      .ok ((utf8Encode t0 ++
        (clearText.map
          (fun b => utf8Encode (byteToVariationSelector b))).flatten) ++
        trest) := by
  simp only [EncodeText]
  rw [if_neg h]
  rfl

theorem C3_amended_witness :
    EncodeText [0x41] (0xC3 :: [0xA9]) =
      .ok ((utf8Encode 0xC3 ++
        ([0x41].map
          (fun b => utf8Encode (byteToVariationSelector b))).flatten) ++
        [0xA9]) :=
  C3_amended [0x41] 0xC3 [0xA9] (by decide)

/-- C4: on non-empty input, `DecodeText` never errors: it maps every scalar
of the input in order through the reverse map — recovered byte on success,
newline byte 0x0A on failure — and trims whitespace from both ends of the
assembled bytes. -/
theorem C4_extract (target : List Nat) (h : target ≠ []) :
    DecodeText target = .ok (trimSpace ((utf8Decode target).map (fun vs =>
      match variationSelectorToByte vs with
      | some b => b
      | none => 0x0A))) :=
  DecodeText_of_ne_nil target h

theorem C4_extract_witness :
    DecodeText [0x41] = .ok (trimSpace ((utf8Decode [0x41]).map (fun vs =>
      match variationSelectorToByte vs with
      | some b => b
      | none => 0x0A))) :=
  C4_extract [0x41] (by decide)

/-- C5: `EncodeText` fails exactly when the carrier (target) or the payload
(clear text) is empty, and `DecodeText` fails exactly when its input is
empty. -/
theorem C5_empty_input (clearText target : List Nat) :
    ((∃ e, EncodeText clearText target = .error e) ↔
      target = [] ∨ clearText = []) ∧
    ((∃ e, DecodeText target = .error e) ↔ target = []) := by
  constructor
  · constructor
    · rintro ⟨e, he⟩
      cases target with
      | nil => exact Or.inl rfl
      | cons t0 tr =>
        by_cases hc : clearText = []
        · exact Or.inr hc
        · simp only [EncodeText, if_neg hc] at he
          exact Except.noConfusion he
    · intro hor
      rcases hor with h | h
      · subst h
        exact ⟨_, rfl⟩
      · cases target with
        | nil => exact ⟨_, rfl⟩
        | cons t0 tr =>
          subst h
          refine ⟨"clear text cannot be empty", ?_⟩
          simp [EncodeText]
  · constructor
    · rintro ⟨e, he⟩
      cases target with
      | nil => rfl
      | cons t0 tr =>
        simp only [DecodeText] at he
        exact Except.noConfusion he
    · intro h
      subst h
      exact ⟨_, rfl⟩

/-- C6: the byte → codepoint map is total, with the spec's formula:
`0xFE00 + b` below 16, else `0xE0100 + (b - 16)`. -/
theorem C6_toCodepoint (b : Nat) (_h : b < 256) :
    byteToVariationSelector b =
      if b < 16 then 0xFE00 + b else 0xE0100 + (b - 16) := rfl

theorem C6_toCodepoint_witness : byteToVariationSelector 200 = 0xE01B8 :=
  (C6_toCodepoint 200 (by decide)).trans (by decide)

/-- C7: the codepoint → byte map returns `cp - 0xFE00` on Range A,
`cp - 0xE0100 + 16` on Range B, and fails outside both ranges. -/
theorem C7_fromCodepoint (cp : Nat) :
    ((0xFE00 ≤ cp ∧ cp ≤ 0xFE0F) →
      variationSelectorToByte cp = some (cp - 0xFE00)) ∧
    ((0xE0100 ≤ cp ∧ cp ≤ 0xE01EF) →
      variationSelectorToByte cp = some (cp - 0xE0100 + 16)) ∧
    (¬ inVSRange cp → variationSelectorToByte cp = none) := by
  refine ⟨?_, ?_, fun h => vsToByte_none_of_not_inVSRange cp h⟩
  · intro h
    rw [variationSelectorToByte_eq_spec, spec_some_of_rangeA cp h]
  · intro h
    rw [variationSelectorToByte_eq_spec, spec_some_of_rangeB cp h]

theorem C7_fromCodepoint_witness :
    variationSelectorToByte 0xFE05 = some 5 ∧
    variationSelectorToByte 0xE0131 = some 0x41 ∧
    variationSelectorToByte 0x41 = none := by
  refine ⟨?_, ?_, (C7_fromCodepoint 0x41).2.2 (by decide)⟩
  · exact ((C7_fromCodepoint 0xFE05).1 (by decide)).trans (by decide)
  · exact ((C7_fromCodepoint 0xE0131).2.1 (by decide)).trans (by decide)

/-- C8: a non-empty input none of whose scalars is a variation selector
(plain text) decodes to the empty string — every scalar falls back to a
newline and the all-whitespace buffer trims to empty. -/
theorem C8_plain_text (target : List Nat) (h : target ≠ [])
    (hplain : ∀ r ∈ utf8Decode target, ¬ inVSRange r) :
    DecodeText target = .ok [] := by
  rw [DecodeText_of_ne_nil target h]
  have hdec : ∀ b ∈ decode target, b = 0x0A := by
    intro b hb
    unfold decode at hb
    simp only [List.mem_map] at hb
    obtain ⟨vs, hvs, rfl⟩ := hb
    exact decodeStep_newline vs (hplain vs hvs)
  rw [trimSpace_all_newlines (decode target) hdec]

theorem C8_plain_text_witness : DecodeText [0x48, 0x69] = .ok [] :=
  C8_plain_text [0x48, 0x69] (by decide) (by decide)

/-- C9: the source's brute-force per-value interval iteration in the
reverse map computes exactly the direct interval-comparison function, on
every codepoint. -/
theorem C9_reverse_map_refinement (cp : Nat) :
    variationSelectorToByte cp = variationSelectorToByteSpec cp :=
  variationSelectorToByte_eq_spec cp

/-- C10: the inner round trip without trimming: for any byte payload
(empty and whitespace bytes included) and any valid scalar base outside the
variation-selector ranges, `decode (encode base p)` is a newline byte
followed by exactly `p`; and `decode` always emits one byte per scalar. -/
theorem C10_inner_round_trip (base : Nat) (p : List Nat)
    (hbase : validScalar base) (hnvs : ¬ inVSRange base)
    (hp : ∀ b ∈ p, b < 256) :
    decode (encode base p) = 0x0A :: p ∧
      ∀ s : List Nat, (decode s).length = (utf8Decode s).length := by
  constructor
  · have hd := decode_encode_append base p [] hbase hnvs hp (by simp)
    rw [List.append_nil] at hd
    simp only [List.length_nil, List.replicate_zero, List.append_nil] at hd
    exact hd
  · intro s
    unfold decode
    rw [List.length_map]

theorem C10_inner_round_trip_witness :
    decode (encode 0x40 [0x0A, 0x20, 0xFF]) = 0x0A :: [0x0A, 0x20, 0xFF] ∧
      ∀ s : List Nat, (decode s).length = (utf8Decode s).length :=
  C10_inner_round_trip 0x40 [0x0A, 0x20, 0xFF] (by decide) (by decide)
    (by decide)

end Encoji
